import Mathlib

/-!
Verification of the go-blade template composition core.

This file embeds, shallowly, the two components of the repository that the
claims are about:

* the name normalizer and directive extractor (`normalizeName`, `parseFile`
  in `engine.go`), and
* the recursive resolver (`ToTemplateString` on `ParsedFile`) together with
  the per-entry-point driver logic of `Load` (fresh context, orphan-stack
  check, appended default-yield definitions).

Text is modelled as `List Char`; Go maps are modelled as association lists
whose iteration order is the insertion order (a determinization of the
unspecified Go map order — no theorem below depends on cross-key order).
The Go pair-return convention for text and error is kept as an explicit pair of the
produced text and an optional error message, so that statements about
"empty output alongside an error" are faithful.
-/

set_option maxRecDepth 100000

namespace Blade

/-- Text is a list of characters. -/
abbrev Str := List Char

/-- Literal helper: the character list of a string literal. -/
def lit (s : String) : Str := s.data

/-- Single-quote character (avoids apostrophe literals). -/
def squote : Char := Char.ofNat 39

/-- Double-quote character. -/
def dquote : Char := Char.ofNat 34

/-! ## Name normalizer (`normalizeName` in `engine.go`) -/

/-- Go whitespace, as trimmed by the TrimSpace call of the normalizer
(ASCII whitespace plus the Latin-1 spaces). -/
def isSpaceGo (c : Char) : Bool :=
  c == ' ' || c == '\t' || c == '\n' || c == Char.ofNat 11 ||
  c == Char.ofNat 12 || c == '\r' || c == Char.ofNat 133 || c == Char.ofNat 160

/-- The cutset of the Trim call in the normalizer: double quote, single quote, space. -/
def isTrimCut (c : Char) : Bool :=
  c == dquote || c == squote || c == ' '

/-- Trim characters satisfying `p` from both ends (the shape of the Go
trim functions used by the normalizer). -/
def trimWhile (p : Char → Bool) (s : Str) : Str :=
  ((s.dropWhile p).reverse.dropWhile p).reverse

/-- The extension finder of the Go path library: scan the path from the end; stop at a path separator with
no extension, or return the suffix starting at the last dot of the final
element.  `extFromRev` walks the reversed string, accumulating the suffix. -/
def extFromRev : Str → Str → Str
  | [], _ => []
  | c :: cs, acc =>
    if c = '/' then []
    else if c = '.' then c :: acc
    else extFromRev cs (c :: acc)

/-- The file extension of a slash-separated path. -/
def extOf (s : Str) : Str := extFromRev s.reverse []

/-- Suffix removal, the TrimSuffix call of the normalizer. -/
def trimSuffixGo (s suf : Str) : Str :=
  if suf <:+ s then s.take (s.length - suf.length) else s

/-- The name normalizer of `engine.go`: trim whitespace, trim quotes/spaces, strip
a trailing file extension, convert separators (`filepath.ToSlash` is the
identity on a slash-separated system, which is how the repository paths
are produced). -/
def normalizeName (n : Str) : Str :=
  let n1 := trimWhile isSpaceGo n
  let n2 := trimWhile isTrimCut n1
  trimSuffixGo n2 (extOf n2)

/-! ## Character classes of the directive regular expressions -/

/-- Go regexp `\w` (ASCII word characters). -/
def isWordChar (c : Char) : Bool :=
  ('a' ≤ c && c ≤ 'z') || ('A' ≤ c && c ≤ 'Z') || ('0' ≤ c && c ≤ '9') || c == '_'

/-- The regexp class for yield, section, stack and push names: word characters and hyphen. -/
def isNameChar (c : Char) : Bool := isWordChar c || c == '-'

/-- The regexp class for extends and include targets: word characters, hyphen, slash, dot, space. -/
def isPathChar (c : Char) : Bool :=
  isWordChar c || c == '-' || c == '/' || c == '.' || c == ' '

/-- Go regexp `\s` = `[\t\n\f\r ]`. -/
def isRegexSpace (c : Char) : Bool :=
  c == '\t' || c == '\n' || c == Char.ofNat 12 || c == '\r' || c == ' '

/-- A quote character, single or double, matching the regexp quote class. -/
def isQuote (c : Char) : Bool := c == dquote || c == squote

/-! ## Matching the directive regular expressions

Each regex of `engine.go` is anchored-matched by a hand-rolled matcher that
is exact for the pattern in question (the character classes exclude the
closing delimiters, so greedy runs followed by literal checks reproduce the
leftmost-first semantics of the Go regexp engine).  A scanner then applies the
matcher at every position, left to right, like `ReplaceAllStringFunc` or
`FindStringSubmatchIndex`. -/

/-- If the first argument is a prefix of the second, the remainder. -/
def stripLit : Str -> Str -> Option Str
  | [], s => some s
  | _, [] => none
  | p :: ps, c :: cs => if p = c then stripLit ps cs else none

/-- Maximal run of characters satisfying `p`, and the rest. -/
def takeClass (p : Char -> Bool) (s : Str) : Str × Str :=
  (s.takeWhile p, s.dropWhile p)

/-- Anchored match of a one-argument directive, keyword plus quoted name
(used for
`@extends(`, `@stack(`, `@push(`): keyword, a quote, a nonempty run of
class characters, a quote, a closing parenthesis.  Returns the captured
name and the rest of the text. -/
def matchSimpleAt (kw : Str) (cls : Char -> Bool) (s : Str) : Option (Str × Str) :=
  match stripLit kw s with
  | none => none
  | some r1 =>
    match r1 with
    | [] => none
    | q :: r2 =>
      if isQuote q then
        let (cap, r3) := takeClass cls r2
        if cap.isEmpty then none else
        match r3 with
        | q2 :: cp :: r4 => if isQuote q2 && cp = ')' then some (cap, r4) else none
        | _ => none
      else none

/-- The optional second string argument of `@yield`/`@section`:
a comma, regexp spaces, a quote, the capture (all characters up to the
closing quote that precedes the closing parenthesis), that quote, and the
parenthesis. -/
def tryDefaultArg (s : Str) : Option (Str × Str) :=
  match s with
  | [] => none
  | c :: cs =>
    if c = ',' then
      let (_, r1) := takeClass isRegexSpace cs
      match r1 with
      | [] => none
      | q :: r2 =>
        if isQuote q then
          let (run, r3) := takeClass (fun ch => !(ch == ')')) r2
          match r3 with
          | cp :: r4 =>
            if cp = ')' then
              match run.getLast? with
              | some qc => if isQuote qc then some (run.dropLast, r4) else none
              | none => none
            else none
          | [] => none
        else none
    else none

/-- Anchored match of the yield and section directives, with their
optional quoted second argument: keyword, quoted name from the name class,
then either the optional default argument or directly the closing
parenthesis. -/
def matchOptDefaultAt (kw : Str) (s : Str) : Option (Str × Option Str × Str) :=
  match stripLit kw s with
  | none => none
  | some r1 =>
    match r1 with
    | [] => none
    | q :: r2 =>
      if isQuote q then
        let (cap, r3) := takeClass isNameChar r2
        if cap.isEmpty then none else
        match r3 with
        | [] => none
        | q2 :: r4 =>
          if isQuote q2 then
            match tryDefaultArg r4 with
            | some (dflt, r5) => some (cap, some dflt, r5)
            | none =>
              match r4 with
              | cp :: r5 => if cp = ')' then some (cap, none, r5) else none
              | [] => none
          else none
      else none

/-- The optional data-expression argument of `@include`: regexp spaces, a
comma, regexp spaces, then a nonempty run of characters up to the first
closing parenthesis. -/
def tryPipelineArg (s : Str) : Option (Str × Str) :=
  let (_, r1) := takeClass isRegexSpace s
  match r1 with
  | [] => none
  | c :: cs =>
    if c = ',' then
      let (_, r2) := takeClass isRegexSpace cs
      let (run, r3) := takeClass (fun ch => !(ch == ')')) r2
      if run.isEmpty then none else
      match r3 with
      | cp :: r4 => if cp = ')' then some (run, r4) else none
      | [] => none
    else none

/-- Anchored match of the include directive with its optional
data-expression argument. -/
def matchIncludeAt (s : Str) : Option (Str × Option Str × Str) :=
  match stripLit (lit "@include(") s with
  | none => none
  | some r1 =>
    match r1 with
    | [] => none
    | q :: r2 =>
      if isQuote q then
        let (cap, r3) := takeClass isPathChar r2
        if cap.isEmpty then none else
        match r3 with
        | [] => none
        | q2 :: r4 =>
          if isQuote q2 then
            match tryPipelineArg r4 with
            | some (pl, r5) => some (cap, some pl, r5)
            | none =>
              match r4 with
              | cp :: r5 => if cp = ')' then some (cap, none, r5) else none
              | [] => none
          else none
      else none

/-- Leftmost match of a one-argument directive: the text before the match,
the captured name, and the text after the match. -/
def findFirstSimple (kw : Str) (cls : Char -> Bool) : Str -> Option (Str × Str × Str)
  | [] => none
  | c :: cs =>
    match matchSimpleAt kw cls (c :: cs) with
    | some (cap, rest) => some ([], cap, rest)
    | none => (findFirstSimple kw cls cs).map fun x => (c :: x.1, x.2.1, x.2.2)

/-- Leftmost match of `@section(...)`: text before, name, optional inline
content, text after. -/
def findFirstOptDir (kw : Str) : Str -> Option (Str × Str × Option Str × Str)
  | [] => none
  | c :: cs =>
    match matchOptDefaultAt kw (c :: cs) with
    | some (cap, inl, rest) => some ([], cap, inl, rest)
    | none => (findFirstOptDir kw cs).map fun x => (c :: x.1, x.2.1, x.2.2.1, x.2.2.2)

/-- First occurrence of a literal: text before it and text after it. -/
def findLit (needle : Str) : Str -> Option (Str × Str)
  | [] => if needle.isEmpty then some ([], []) else none
  | c :: cs =>
    if needle.isPrefixOf (c :: cs) then some ([], (c :: cs).drop needle.length)
    else (findLit needle cs).map fun x => (c :: x.1, x.2)

/-! ## Association lists standing in for Go maps -/

/-- Lookup in an association list (Go map read). -/
def lookupA {A : Type} : List (Str × A) -> Str -> Option A
  | [], _ => none
  | (k, v) :: rest, key => if k = key then some v else lookupA rest key

/-- Insert-or-replace (Go map write `m[k] = v`); iteration order is the
insertion order of the keys. -/
def upsertA {A : Type} (k : Str) (v : A) : List (Str × A) -> List (Str × A)
  | [] => [(k, v)]
  | (k2, v2) :: rest => if k2 = k then (k, v) :: rest else (k2, v2) :: upsertA k v rest

/-- Keys of an association list. -/
def keysA {A : Type} (m : List (Str × A)) : List Str := m.map Prod.fst

/-- Insertion into a set of names (Go `map[string]struct{}` write). -/
def insertSet (k : Str) (s : List Str) : List Str :=
  if k ∈ s then s else s ++ [k]

/-- Append values to the list stored at a key
(Go `m[k] = append(m[k], ...)`). -/
def appendAt (k : Str) (vs : List Str) : List (Str × List Str) -> List (Str × List Str)
  | [] => [(k, vs)]
  | (k2, vs2) :: rest => if k2 = k then (k2, vs2 ++ vs) :: rest else (k2, vs2) :: appendAt k vs rest

/-! ## The data model (`ParsedFile` in the repository) -/

/-- One source file-s structured directive content (`ParsedFile`).
`ParsedAt` (a wall-clock timestamp) is omitted: no claim concerns it.
`Includes` is kept as an ordered list; `parseFile` below populates it with
set semantics (`engine.go` stores includes into a Go map). -/
structure ParsedFile where
  Name : Str
  Raw : Str
  Extends : Str
  Includes : List Str
  Yields : List (Str × Str)
  Sections : List (Str × Str)
  Stacks : List Str
  PushStacks : List (Str × List Str)
  StandaloneBody : Str
  deriving DecidableEq

/-- Modelled from the spec: the reserved namespace prefix for yield/section
blocks.  The constant-s definition is not among the provided source files;
its concrete value is irrelevant to every claim, only its consistent use. -/
def yieldNamePrefix : Str := lit "__yield_"

/-- Modelled from the spec: the reserved namespace prefix for stack-drain
blocks. -/
def stackNamePrefix : Str := lit "__stack_"

/-- Modelled from the spec: the reserved namespace prefix for include
wrapper blocks. -/
def includeNamePrefix : Str := lit "__include_"

/-- The rewrite of a yield directive: a block reference invoking the
prefixed yield block. -/
def yieldRef (name : Str) : Str :=
  lit "\x7b\x7b template \"" ++ yieldNamePrefix ++ name ++ lit "\" . \x7d\x7d"

/-- The rewrite of a stack directive. -/
def stackRef (name : Str) : Str :=
  lit "\x7b\x7b template \"" ++ stackNamePrefix ++ name ++ lit "\" . \x7d\x7d"

/-- The rewrite of an include directive, carrying its data pipeline. -/
def includeRef (name pipeline : Str) : Str :=
  lit "\x7b\x7b template \"" ++ includeNamePrefix ++ name ++ lit "\" " ++ pipeline ++ lit " \x7d\x7d"

/-! ## The directive extractor (`parseFile` in `engine.go`) -/

/-- The `@yield` rewriting pass of `parseFile`: every occurrence is
recorded (normalized name, default content — empty when absent) and
replaced by a yield block reference.  The fuel is the remaining text
length plus one; every step consumes at least one character, so the
zero-fuel branch is unreachable. -/
def rewriteYieldsGo : Nat -> Str -> List (Str × Str) -> Str × List (Str × Str)
  | 0, s, ys => (s, ys)
  | Nat.succ fuel, s, ys =>
    match s with
    | [] => ([], ys)
    | c :: cs =>
      match matchOptDefaultAt (lit "@yield(") (c :: cs) with
      | some (cap, dflt, rest) =>
        let name := normalizeName cap
        let (tail, ys2) := rewriteYieldsGo fuel rest (upsertA name (dflt.getD []) ys)
        (yieldRef name ++ tail, ys2)
      | none =>
        let (tail, ys2) := rewriteYieldsGo fuel cs ys
        (c :: tail, ys2)

/-- All `@yield` occurrences rewritten; recorded yields in source order. -/
def rewriteYields (s : Str) : Str × List (Str × Str) :=
  rewriteYieldsGo (s.length + 1) s []

/-- The `@stack` rewriting pass of `parseFile`. -/
def rewriteStacksGo : Nat -> Str -> List Str -> Str × List Str
  | 0, s, st => (s, st)
  | Nat.succ fuel, s, st =>
    match s with
    | [] => ([], st)
    | c :: cs =>
      match matchSimpleAt (lit "@stack(") isNameChar (c :: cs) with
      | some (cap, rest) =>
        let name := normalizeName cap
        let (tail, st2) := rewriteStacksGo fuel rest (insertSet name st)
        (stackRef name ++ tail, st2)
      | none =>
        let (tail, st2) := rewriteStacksGo fuel cs st
        (c :: tail, st2)

/-- All `@stack` occurrences rewritten; recorded stack names. -/
def rewriteStacks (s : Str) : Str × List Str :=
  rewriteStacksGo (s.length + 1) s []

/-- The `@include` rewriting pass of `parseFile`: the normalized target is
recorded into the includes map (set semantics) and the occurrence becomes
an include block reference carrying the trimmed data expression, `.` when
absent or blank. -/
def rewriteIncludesGo : Nat -> Str -> List Str -> Str × List Str
  | 0, s, inc => (s, inc)
  | Nat.succ fuel, s, inc =>
    match s with
    | [] => ([], inc)
    | c :: cs =>
      match matchIncludeAt (c :: cs) with
      | some (cap, pl, rest) =>
        let name := normalizeName cap
        let pipe0 := trimWhile isSpaceGo (pl.getD [])
        let pipe := if pipe0.isEmpty then lit "." else pipe0
        let (tail, inc2) := rewriteIncludesGo fuel rest (insertSet name inc)
        (includeRef name pipe ++ tail, inc2)
      | none =>
        let (tail, inc2) := rewriteIncludesGo fuel cs inc
        (c :: tail, inc2)

/-- All `@include` occurrences rewritten; recorded include targets. -/
def rewriteIncludes (s : Str) : Str × List Str :=
  rewriteIncludesGo (s.length + 1) s []

/-- The section extraction loop of `parseFile`: repeatedly take the
leftmost `@section`; an inline second argument is stored as-is and the
directive removed; otherwise the text up to the following `@endsection`
is trimmed and stored, and the whole span removed.  A missing end marker
is a fatal parse error naming the file. -/
def extractSectionsGo (fileName : Str) : Nat -> Str -> List (Str × Str) -> Except Str (Str × List (Str × Str))
  | 0, s, secs => .ok (s, secs)
  | Nat.succ fuel, s, secs =>
    match findFirstOptDir (lit "@section(") s with
    | none => .ok (s, secs)
    | some (before, name, some inl, rest) =>
      extractSectionsGo fileName fuel (before ++ rest) (upsertA name inl secs)
    | some (before, name, none, rest) =>
      match findLit (lit "@endsection") rest with
      | none => .error (lit "[" ++ fileName ++ lit "] missing @endsection")
      | some (content, after) =>
        extractSectionsGo fileName fuel (before ++ after)
          (upsertA name (trimWhile isSpaceGo content) secs)

/-- The push extraction loop of `parseFile`: repeatedly take the leftmost
`@push`; the trimmed text up to the following `@endpush` is appended to
that stack-s fragment list, and the span removed. -/
def extractPushesGo (fileName : Str) : Nat -> Str -> List (Str × List Str) -> Except Str (Str × List (Str × List Str))
  | 0, s, ps => .ok (s, ps)
  | Nat.succ fuel, s, ps =>
    match findFirstSimple (lit "@push(") isNameChar s with
    | none => .ok (s, ps)
    | some (before, name, rest) =>
      match findLit (lit "@endpush") rest with
      | none => .error (lit "[" ++ fileName ++ lit "] missing @endpush")
      | some (content, after) =>
        extractPushesGo fileName fuel (before ++ after)
          (appendAt name [trimWhile isSpaceGo content] ps)

/-- The `@extends` pass of `parseFile`: locate at most one occurrence (the
leftmost), record its normalized target, and remove the directive text. -/
def extendsPass (raw : Str) : Str × Str :=
  match findFirstSimple (lit "@extends(") isPathChar raw with
  | some (before, cap, after) => (normalizeName cap, before ++ after)
  | none => ([], raw)

/-- The directive extractor of `engine.go`: extract the first `@extends`, rewrite every
`@yield`, `@stack` and `@include`, extract sections and pushes, and keep
the trimmed residue as the standalone body. -/
def parseFile (name raw : Str) : Except Str ParsedFile := do
  let (ext, rest0) := extendsPass raw
  let (rest1, yields) := rewriteYields rest0
  let (rest2, stackNames) := rewriteStacks rest1
  let (rest3, includes) := rewriteIncludes rest2
  let (rest4, sections) <- extractSectionsGo name (rest3.length + 1) rest3 []
  let (rest5, pushes) <- extractPushesGo name (rest4.length + 1) rest4 []
  .ok { Name := name, Raw := raw, Extends := ext, Includes := includes,
        Yields := yields, Sections := sections, Stacks := stackNames,
        PushStacks := pushes, StandaloneBody := trimWhile isSpaceGo rest5 }

/-! ## The compile context and the resolver (`ToTemplateString`) -/

/-- A registered yield: its name, the file that declared it, its default. -/
structure YieldInfo where
  Name : Str
  FileName : Str
  Default : Str
  deriving DecidableEq

/-- One entry-point resolution-s shared mutable state (`CompileContext`). -/
structure CompileContext where
  Files : List (Str × ParsedFile)
  Yields : List (Str × YieldInfo)
  FilledYields : List Str
  Stacks : List (Str × Str)
  PushStacks : List (Str × List Str)
  deriving DecidableEq

/-- The fresh context `Load` builds for each entry point. -/
def freshCtx (files : List (Str × ParsedFile)) : CompileContext :=
  { Files := files, Yields := [], FilledYields := [], Stacks := [], PushStacks := [] }

/-- Step 1 of `ToTemplateString`: each file-visited stack-s fragments are
appended to the context-s pending pushes in reverse source order. -/
def registerPushes : List (Str × List Str) -> CompileContext -> CompileContext
  | [], ctx => ctx
  | (n, vs) :: rest, ctx =>
    registerPushes rest { ctx with PushStacks := appendAt n vs.reverse ctx.PushStacks }

/-- An emitted block definition: newline, define-open with the prefixed
name, the body, and the end marker. -/
def defineBlock (prefix_ name body : Str) : Str :=
  lit "\n\x7b\x7b define \"" ++ prefix_ ++ name ++ lit "\" \x7d\x7d" ++ body ++ lit "\x7b\x7b end \x7d\x7d"

/-- The duplicate-stack compile error message. -/
def dupStackMsg (fileName name prior : Str) : Str :=
  lit "[" ++ fileName ++ lit "] duplicate stack name \"" ++ name ++
  lit "\", already defined in file \"" ++ prior ++ lit "\""

/-- The duplicate-yield compile error message. -/
def dupYieldMsg (fileName name prior : Str) : Str :=
  lit "[" ++ fileName ++ lit "] duplicate yield name \"" ++ name ++
  lit "\", already defined in file \"" ++ prior ++ lit "\""

/-- The missing-extends-target compile error message. -/
def missingExtendsMsg (fileName target : Str) : Str :=
  lit "[" ++ fileName ++ lit "] template \"" ++ target ++ lit "\" not found to extends"

/-- The missing-include-target compile error message. -/
def missingIncludeMsg (fileName target : Str) : Str :=
  lit "[" ++ fileName ++ lit "] template \"" ++ target ++ lit "\" not found to include"

/-- The missing-stack error raised by `Load` after a resolution. -/
def missingStackMsg (fileName name : Str) : Str :=
  lit "[" ++ fileName ++ lit "] missing stack \"" ++ name ++ lit "\""

/-- Modelled fuel-exhaustion message: Go recurses unboundedly on an
`extends`/`include` cycle; the fuel bound turns that divergence into an
error that no terminating Go execution produces. -/
def outOfFuelMsg : Str := lit "out of fuel"

/-- Step 2 of `ToTemplateString`: for each stack name this file declares,
fail if the name is already owned, otherwise record ownership and emit the
stack-drain block whose body is the pending pushes drained in reverse
accumulation order. -/
def drainStacks (fileName : Str) : List Str -> CompileContext -> Str -> Str × CompileContext × Option Str
  | [], ctx, acc => (acc, ctx, none)
  | n :: ns, ctx, acc =>
    match lookupA ctx.Stacks n with
    | some prior => (acc, ctx, some (dupStackMsg fileName n prior))
    | none =>
      let ctx2 := { ctx with Stacks := ctx.Stacks ++ [(n, fileName)] }
      let body := ((lookupA ctx2.PushStacks n).getD []).reverse.flatten
      drainStacks fileName ns ctx2 (acc ++ defineBlock stackNamePrefix n body)

/-- Step 3 of `ToTemplateString`: emit a yield-namespace block for each of
this file-s sections whose name is not yet filled; nearer-to-entry-point
files win, later same-named sections are skipped silently. -/
def emitSections : List (Str × Str) -> CompileContext -> Str -> Str × CompileContext
  | [], ctx, acc => (acc, ctx)
  | (n, content) :: rest, ctx, acc =>
    if n ∈ ctx.FilledYields then emitSections rest ctx acc
    else
      emitSections rest { ctx with FilledYields := ctx.FilledYields ++ [n] }
        (acc ++ defineBlock yieldNamePrefix n content)

/-- Step 4 of `ToTemplateString`: register this file-s yields; a second
registration of a name is a compile error naming both files. -/
def registerYields (fileName : Str) : List (Str × Str) -> CompileContext -> CompileContext × Option Str
  | [], ctx => (ctx, none)
  | (n, d) :: rest, ctx =>
    match lookupA ctx.Yields n with
    | some info => (ctx, some (dupYieldMsg fileName n info.FileName))
    | none =>
      registerYields fileName rest
        { ctx with Yields := ctx.Yields ++ [(n, { Name := n, FileName := fileName, Default := d })] }

/-- The two mutually recursive shapes of the resolver: resolving one file,
and the include loop of a file (which resolves each include and wraps it). -/
inductive Job where
  | file (p : ParsedFile)
  | includesLoop (fileName : Str) (names : List Str) (acc : Str)
  deriving DecidableEq

/-- The fuel-indexed resolver.  `step (fuel+1) (Job.file p) ctx` is the body
of `ToTemplateString` in the source: register pushes, drain declared
stacks, emit sections, register yields, recurse into the extends parent,
recurse into each include, and append the standalone body only when the
file extends nothing.  Every Go error return carries the empty string; the
context is returned as it stands (the Go receiver mutates it in place). -/
def step : Nat -> Job -> CompileContext -> Str × CompileContext × Option Str
  | 0, _, ctx => ([], ctx, some outOfFuelMsg)
  | Nat.succ fuel, Job.includesLoop fileName names acc, ctx =>
    match names with
    | [] => (acc, ctx, none)
    | n :: ns =>
      match lookupA ctx.Files n with
      | none => ([], ctx, some (missingIncludeMsg fileName n))
      | some q =>
        match step fuel (Job.file q) ctx with
        | (_, ctx2, some e) => ([], ctx2, some e)
        | (t, ctx2, none) =>
          step fuel (Job.includesLoop fileName ns (acc ++ defineBlock includeNamePrefix n t)) ctx2
  | Nat.succ fuel, Job.file p, ctx =>
    let ctx1 := registerPushes p.PushStacks ctx
    match drainStacks p.Name p.Stacks ctx1 [] with
    | (_, ctx2, some e) => ([], ctx2, some e)
    | (out1, ctx2, none) =>
      let (out2, ctx3) := emitSections p.Sections ctx2 out1
      match registerYields p.Name p.Yields ctx3 with
      | (ctx4, some e) => ([], ctx4, some e)
      | (ctx4, none) =>
        if p.Extends = [] then
          match step fuel (Job.includesLoop p.Name p.Includes out2) ctx4 with
          | (_, ctx5, some e) => ([], ctx5, some e)
          | (t, ctx5, none) => (t ++ lit "\n" ++ p.StandaloneBody, ctx5, none)
        else
          match lookupA ctx4.Files p.Extends with
          | none => ([], ctx4, some (missingExtendsMsg p.Name p.Extends))
          | some parent =>
            match step fuel (Job.file parent) ctx4 with
            | (_, ctx5, some e) => ([], ctx5, some e)
            | (pt, ctx5, none) =>
              match step fuel (Job.includesLoop p.Name p.Includes (out2 ++ pt)) ctx5 with
              | (_, ctx6, some e) => ([], ctx6, some e)
              | (t, ctx6, none) => (t, ctx6, none)

/-- The resolver method of `ParsedFile`, at a given fuel. -/
def ToTemplateString (p : ParsedFile) (ctx : CompileContext) (fuel : Nat) : Str × CompileContext × Option Str :=
  step fuel (Job.file p) ctx

/-- The default-yield builder of `engine.go`: a synthesized yield-namespace
block for every registered yield whose name was never filled by a section,
holding the recorded default. -/
def buildDefaultYieldContent : List (Str × YieldInfo) -> List Str -> Str
  | [], _ => []
  | (n, info) :: rest, filled =>
    if n ∈ filled then buildDefaultYieldContent rest filled
    else defineBlock yieldNamePrefix n info.Default ++ buildDefaultYieldContent rest filled

/-- The post-resolution check in `Load`: every stack name that received a
push must have been declared by some visited file. -/
def orphanCheck (entryName : Str) : List (Str × List Str) -> List (Str × Str) -> Option Str
  | [], _ => none
  | (n, _) :: rest, declared =>
    match lookupA declared n with
    | some _ => orphanCheck entryName rest declared
    | none => some (missingStackMsg entryName n)

/-- The per-entry-point body of `Load`: resolve with a fresh context, run
the orphan-stack check, then append the default-yield definitions to the
composed text.  On any error no composed text is produced for the entry. -/
def compileEntry (files : List (Str × ParsedFile)) (p : ParsedFile) (fuel : Nat) : Except Str Str :=
  match ToTemplateString p (freshCtx files) fuel with
  | (_, _, some e) => .error e
  | (body, ctx, none) =>
    match orphanCheck p.Name ctx.PushStacks ctx.Stacks with
    | some e => .error e
    | none => .ok (body ++ buildDefaultYieldContent ctx.Yields ctx.FilledYields)

/-! ## Lemmas about trimming and the normalizer -/

theorem dropWhile_head_false {p : Char -> Bool} :
    ∀ {s c cs}, List.dropWhile p s = c :: cs -> p c = false := by
  intro s
  induction s with
  | nil => intro c cs h; simp [List.dropWhile] at h
  | cons a as ih =>
    intro c cs h
    rw [List.dropWhile_cons] at h
    by_cases ha : p a
    · rw [if_pos ha] at h
      exact ih h
    · rw [if_neg ha] at h
      cases h
      exact Bool.eq_false_iff.mpr ha

theorem trimWhile_pref {p : Char -> Bool} (s : Str) :
    trimWhile p s <+: s.dropWhile p := by
  have h : (s.dropWhile p).reverse.dropWhile p <:+ (s.dropWhile p).reverse :=
    List.dropWhile_suffix p
  have h2 := List.reverse_prefix.mpr h
  rw [List.reverse_reverse] at h2
  exact h2

theorem mem_trimWhile {p : Char -> Bool} {c : Char} {s : Str}
    (h : c ∈ trimWhile p s) : c ∈ s :=
  ((trimWhile_pref s).sublist.trans (List.dropWhile_suffix p).sublist).mem h

theorem trimWhile_head_false {p : Char -> Bool} {s : Str} {c : Char} {cs : Str}
    (h : trimWhile p s = c :: cs) : p c = false := by
  obtain ⟨t, ht⟩ := trimWhile_pref (p := p) s
  rw [h] at ht
  exact dropWhile_head_false (s := s) ht.symm

theorem trimWhile_reverse_eq {p : Char -> Bool} (s : Str) :
    (trimWhile p s).reverse = (s.dropWhile p).reverse.dropWhile p := by
  unfold trimWhile
  rw [List.reverse_reverse]

theorem trimWhile_revhead_false {p : Char -> Bool} {s : Str} {c : Char} {cs : Str}
    (h : (trimWhile p s).reverse = c :: cs) : p c = false := by
  rw [trimWhile_reverse_eq] at h
  exact dropWhile_head_false h

theorem trimWhile_eq_self {p : Char -> Bool} {t : Str}
    (hh : ∀ c cs, t = c :: cs -> p c = false)
    (hl : ∀ c cs, t.reverse = c :: cs -> p c = false) : trimWhile p t = t := by
  have h1 : t.dropWhile p = t := by
    cases t with
    | nil => rfl
    | cons a as =>
      rw [List.dropWhile_cons, hh a as rfl]
      simp
  have h2 : t.reverse.dropWhile p = t.reverse := by
    cases ht : t.reverse with
    | nil => rfl
    | cons a as =>
      rw [List.dropWhile_cons, hl a as ht]
      simp
  unfold trimWhile
  rw [h1, h2, List.reverse_reverse]

theorem extFromRev_eq_nil : ∀ (v acc : Str), (∀ c ∈ v, c ≠ Char.ofNat 46) ->
    extFromRev v acc = [] := by
  intro v
  induction v with
  | nil => intro acc _; rfl
  | cons c cs ih =>
    intro acc h
    rw [extFromRev]
    by_cases hc : c = Char.ofNat 47
    · rw [if_pos hc]
    · rw [if_neg hc, if_neg (h c (List.mem_cons_self c cs))]
      exact ih _ fun d hd => h d (List.mem_cons_of_mem c hd)

theorem extOf_eq_nil {t : Str} (h : ∀ c ∈ t, c ≠ Char.ofNat 46) : extOf t = [] := by
  unfold extOf
  exact extFromRev_eq_nil t.reverse [] fun c hc => h c (List.mem_reverse.mp hc)

theorem trimSuffixGo_nil (s : Str) : trimSuffixGo s [] = s := by
  unfold trimSuffixGo
  rw [if_pos (List.nil_suffix : ([] : Str) <:+ s)]
  simp

/-- On a character valid for extends/include targets, the only Go-space
character is the plain space, which the quote/space cutset also trims. -/
theorem space_eq_false_of_path {c : Char} (h1 : isPathChar c = true)
    (h2 : isTrimCut c = false) : isSpaceGo c = false := by
  by_contra hs
  rw [Bool.not_eq_false] at hs
  simp only [isSpaceGo, Bool.or_eq_true, beq_iff_eq] at hs
  rcases hs with ((((((h | h) | h) | h) | h) | h) | h) | h <;> subst h <;>
    first
      | exact absurd h2 (by decide)
      | exact absurd h1 (by decide)

/-- For a dot-free string of valid target characters, one application of
`normalizeName` only trims spaces, and its result is a fixed point. -/
theorem normalizeName_fix {s : Str}
    (hvalid : ∀ c ∈ s, isPathChar c = true)
    (hdot : ∀ c ∈ s, c ≠ Char.ofNat 46) :
    normalizeName (normalizeName s) = normalizeName s := by
  have hmem : ∀ c ∈ trimWhile isTrimCut (trimWhile isSpaceGo s), c ∈ s :=
    fun c hc => mem_trimWhile (mem_trimWhile hc)
  set t := trimWhile isTrimCut (trimWhile isSpaceGo s) with ht
  have hext : extOf t = [] := extOf_eq_nil fun c hc => hdot c (hmem c hc)
  have hnorm1 : normalizeName s = t := by
    show trimSuffixGo (trimWhile isTrimCut (trimWhile isSpaceGo s))
        (extOf (trimWhile isTrimCut (trimWhile isSpaceGo s))) = t
    rw [← ht, hext, trimSuffixGo_nil]
  have hcutL : ∀ c cs, t = c :: cs -> isTrimCut c = false := fun c cs h =>
    trimWhile_head_false h
  have hcutR : ∀ c cs, t.reverse = c :: cs -> isTrimCut c = false := fun c cs h =>
    trimWhile_revhead_false h
  have hspaceL : ∀ c cs, t = c :: cs -> isSpaceGo c = false := by
    intro c cs h
    have hc : c ∈ s := hmem c (h ▸ List.mem_cons_self c cs)
    exact space_eq_false_of_path (hvalid c hc) (hcutL c cs h)
  have hspaceR : ∀ c cs, t.reverse = c :: cs -> isSpaceGo c = false := by
    intro c cs h
    have hc : c ∈ s := hmem c (List.mem_reverse.mp (h ▸ List.mem_cons_self c cs))
    exact space_eq_false_of_path (hvalid c hc) (hcutR c cs h)
  have hts : trimWhile isSpaceGo t = t := trimWhile_eq_self hspaceL hspaceR
  have htc : trimWhile isTrimCut t = t := trimWhile_eq_self hcutL hcutR
  have hnorm2 : normalizeName t = t := by
    show trimSuffixGo (trimWhile isTrimCut (trimWhile isSpaceGo t))
        (extOf (trimWhile isTrimCut (trimWhile isSpaceGo t))) = t
    rw [hts, htc, hext, trimSuffixGo_nil]
  rw [hnorm1, hnorm2]

/-! ## Claim C4 -/

/-- C4 (counterexample): the valid input `a.b.c` (all its characters are
allowed by the extends/include target class) is not normalized
idempotently: one application gives `a.b`, a second gives `a`. -/
theorem c4_normalize_not_idempotent :
    (∀ c ∈ lit "a.b.c", isPathChar c = true) ∧
    normalizeName (lit "a.b.c") = lit "a.b" ∧
    normalizeName (normalizeName (lit "a.b.c")) ≠ normalizeName (lit "a.b.c") :=
  ⟨by decide, by decide, by decide⟩

/-- C4 (amended): name normalization is idempotent for every valid input
that contains no dot character (a dot can start a new trailing extension
that only the second application strips, as the counterexample shows). -/
theorem c4_normalize_idempotent_dotfree (s : Str)
    (hvalid : ∀ c ∈ s, isPathChar c = true)
    (hdot : ∀ c ∈ s, c ≠ Char.ofNat 46) :
    normalizeName (normalizeName s) = normalizeName s :=
  normalizeName_fix hvalid hdot

/-- C4 (witness): the amended idempotence applied at `pages/home `. -/
theorem c4_normalize_idempotent_dotfree_witness :
    normalizeName (normalizeName (lit "pages/home ")) = normalizeName (lit "pages/home ") :=
  c4_normalize_idempotent_dotfree (lit "pages/home ") (by decide) (by decide)

/-! ## Anatomy of a successful extraction -/

/-- A successful `parseFile` run determines every field of the result from
the pipeline of passes, in the order the source applies them. -/
theorem parseFile_ok_shape {nm raw : Str} {p : ParsedFile}
    (h : parseFile nm raw = .ok p) :
    ∃ rest4 secs rest5 pushes,
      extractSectionsGo nm
          ((rewriteIncludes (rewriteStacks (rewriteYields (extendsPass raw).2).1).1).1.length + 1)
          (rewriteIncludes (rewriteStacks (rewriteYields (extendsPass raw).2).1).1).1 []
        = .ok (rest4, secs) ∧
      extractPushesGo nm (rest4.length + 1) rest4 [] = .ok (rest5, pushes) ∧
      p = { Name := nm, Raw := raw, Extends := (extendsPass raw).1,
            Includes := (rewriteIncludes (rewriteStacks (rewriteYields (extendsPass raw).2).1).1).2,
            Yields := (rewriteYields (extendsPass raw).2).2,
            Sections := secs,
            Stacks := (rewriteStacks (rewriteYields (extendsPass raw).2).1).2,
            PushStacks := pushes,
            StandaloneBody := trimWhile isSpaceGo rest5 } := by
  unfold parseFile at h
  rcases hE : extendsPass raw with ⟨ext, rest0⟩
  rw [hE] at h
  dsimp only at h
  rcases hY : rewriteYields rest0 with ⟨rest1, ys⟩
  rw [hY] at h
  dsimp only at h
  rcases hS : rewriteStacks rest1 with ⟨rest2, sts⟩
  rw [hS] at h
  dsimp only at h
  rcases hI : rewriteIncludes rest2 with ⟨rest3, incs⟩
  rw [hI] at h
  simp only [bind, Except.bind] at h
  rcases hSec : extractSectionsGo nm (rest3.length + 1) rest3 [] with e | ⟨rest4, secs⟩
  · rw [hSec] at h
    simp at h
  rw [hSec] at h
  dsimp only at h
  rcases hP : extractPushesGo nm (rest4.length + 1) rest4 [] with e | ⟨rest5, pushes⟩
  · rw [hP] at h
    simp at h
  rw [hP] at h
  dsimp only at h
  simp only [Except.ok.injEq] at h
  refine ⟨rest4, secs, rest5, pushes, rfl, hP, ?_⟩
  dsimp only
  exact h.symm

/-! ## Concrete scenarios used by the claims -/

deriving instance DecidableEq for Except

/-- The empty `ParsedFile`, used only as the error fallback of `okOr`. -/
def emptyParsed : ParsedFile :=
  { Name := [], Raw := [], Extends := [], Includes := [], Yields := [],
    Sections := [], Stacks := [], PushStacks := [], StandaloneBody := [] }

/-- The parsed file of a successful extraction (fallback: `emptyParsed`). -/
def okOr : Except Str ParsedFile -> ParsedFile
  | .ok p => p
  | .error _ => emptyParsed

/-- The composed text of a successful compilation (fallback: empty). -/
def okText : Except Str Str -> Str
  | .ok t => t
  | .error _ => []

def c1ChildRaw : Str := lit "@extends(\"par\")@push(\"scripts\")A@endpush"

def c1ParentRaw : Str := lit "@stack(\"scripts\")@push(\"scripts\")B@endpush"

def c1Child : ParsedFile := okOr (parseFile (lit "c") c1ChildRaw)

def c1Parent : ParsedFile := okOr (parseFile (lit "par") c1ParentRaw)

def c1Files : List (Str × ParsedFile) := [(lit "c", c1Child), (lit "par", c1Parent)]

def c1WideRaw : Str := lit "@stack(\"s\")@push(\"s\")X@endpush@push(\"s\")Y@endpush"

def c1Wide : ParsedFile := okOr (parseFile (lit "w") c1WideRaw)

theorem lookupA_appendAt : ∀ (m : List (Str × List Str)) (k : Str) (vs : List Str),
    lookupA (appendAt k vs m) k = some ((lookupA m k).getD [] ++ vs) := by
  intro m
  induction m with
  | nil =>
    intro k vs
    dsimp only [appendAt, lookupA]
    rw [if_pos rfl]
    rfl
  | cons kv rest ih =>
    intro k vs
    rcases kv with ⟨k2, vs2⟩
    dsimp only [appendAt, lookupA]
    by_cases hk : k2 = k
    · rw [if_pos hk]
      dsimp only [lookupA]
      rw [if_pos hk, if_pos hk]
      rfl
    · rw [if_neg hk]
      dsimp only [lookupA]
      rw [if_neg hk, if_neg hk]
      exact ih k vs

/-! ## Claim C1 -/

/-- C1 (counterexample): child `c` pushes `A` to stack `scripts`, its parent
`par` pushes `B` and declares the drain point.  Resolving `c` emits the
drain block with body `BA`, and no drain block with body `AB` (the claimed
child-first order) occurs anywhere in the composed text. -/
theorem c1_stack_order_cex :
    parseFile (lit "c") c1ChildRaw = .ok c1Child ∧
    parseFile (lit "par") c1ParentRaw = .ok c1Parent ∧
    c1Child.PushStacks = [(lit "scripts", [lit "A"])] ∧
    c1Parent.PushStacks = [(lit "scripts", [lit "B"])] ∧
    c1Parent.Stacks = [lit "scripts"] ∧
    compileEntry c1Files c1Child 10 =
      .ok (lit "\n\x7b\x7b define \"__stack_scripts\" \x7d\x7dBA\x7b\x7b end \x7d\x7d\n\x7b\x7b template \"__stack_scripts\" . \x7d\x7d") ∧
    ¬ (lit "\x7d\x7dAB\x7b\x7b" <:+:
        okText (compileEntry c1Files c1Child 10)) :=
  ⟨by decide, by decide, by decide, by decide, by decide, by decide, by decide⟩

/-- C1 (amended): in the extends chain where the child pushes `A` and the
parent pushes `B` and drains, the drain body is `B` then `A` — ancestor
fragments drain before fragments of files nearer the entry point; within a
single file (`w` pushes `X` then `Y`), fragments drain in source order. -/
theorem c1_stack_order_amended :
    (∀ (ctx : CompileContext) (n : Str) (vs1 vs2 : List Str),
      lookupA ctx.PushStacks n = none ->
      ((lookupA (registerPushes [(n, vs2)] (registerPushes [(n, vs1)] ctx)).PushStacks n).getD
          []).reverse.flatten = vs2.flatten ++ vs1.flatten) ∧
    defineBlock stackNamePrefix (lit "scripts") (lit "BA") <:+:
      okText (compileEntry c1Files c1Child 10) ∧
    parseFile (lit "w") c1WideRaw = .ok c1Wide ∧
    c1Wide.PushStacks = [(lit "s", [lit "X", lit "Y"])] ∧
    defineBlock stackNamePrefix (lit "s") (lit "XY") <:+:
      okText (compileEntry [(lit "w", c1Wide)] c1Wide 10) := by
  refine ⟨?_, by decide, by decide, by decide, by decide⟩
  intro ctx n vs1 vs2 hnone
  dsimp only [registerPushes]
  rw [lookupA_appendAt, lookupA_appendAt, hnone]
  simp [List.reverse_append, List.flatten_append]

/-- C1 (witness): the drain-order law applied to singleton child and
parent fragments in an empty context. -/
theorem c1_stack_order_amended_witness :
    ((lookupA (registerPushes [(lit "s", [lit "B"])]
        (registerPushes [(lit "s", [lit "A"])] (freshCtx []))).PushStacks (lit "s")).getD
      []).reverse.flatten = [lit "B"].flatten ++ [lit "A"].flatten :=
  c1_stack_order_amended.1 (freshCtx []) (lit "s") [lit "A"] [lit "B"] (by decide)

def c2LayoutRaw : Str := lit "<title>@yield(\"title\",\"Untitled\")</title>"

def c2PageRaw : Str := lit "@extends(\"l\")@section(\"title\") Home @endsection"

def c2Layout : ParsedFile := okOr (parseFile (lit "l") c2LayoutRaw)

def c2Page : ParsedFile := okOr (parseFile (lit "p") c2PageRaw)

def c2Files : List (Str × ParsedFile) := [(lit "l", c2Layout), (lit "p", c2Page)]

/-! ## Claim C2 -/

/-- C2: layout `l` holds `@yield` of `title` with default `Untitled`; page
`p` extends it with a `title` section `Home`.  Resolving `p` produces
composed text defining the `title` block with body `Home` (and no
`Untitled` definition); resolving `l` alone produces composed text whose
appended default definitions bind `title` to `Untitled` (and no `Home`
definition). -/
theorem c2_yield_roundtrip :
    parseFile (lit "l") c2LayoutRaw = .ok c2Layout ∧
    parseFile (lit "p") c2PageRaw = .ok c2Page ∧
    c2Layout.Yields = [(lit "title", lit "Untitled")] ∧
    c2Page.Sections = [(lit "title", lit "Home")] ∧
    defineBlock yieldNamePrefix (lit "title") (lit "Home") <:+:
      okText (compileEntry c2Files c2Page 10) ∧
    ¬ (defineBlock yieldNamePrefix (lit "title") (lit "Untitled") <:+:
        okText (compileEntry c2Files c2Page 10)) ∧
    defineBlock yieldNamePrefix (lit "title") (lit "Untitled") <:+:
      okText (compileEntry c2Files c2Layout 10) ∧
    ¬ (defineBlock yieldNamePrefix (lit "title") (lit "Home") <:+:
        okText (compileEntry c2Files c2Layout 10)) :=
  ⟨by decide, by decide, by decide, by decide, by decide, by decide, by decide, by decide⟩

def c3EntryRaw : Str := lit "@extends(\"par3\")@stack(\"scr\")"

def c3ParentRaw : Str := lit "@push(\"scr\")FRAG@endpush hello"

def c3Entry : ParsedFile := okOr (parseFile (lit "e3") c3EntryRaw)

def c3Parent : ParsedFile := okOr (parseFile (lit "par3") c3ParentRaw)

def c3Files : List (Str × ParsedFile) := [(lit "e3", c3Entry), (lit "par3", c3Parent)]

def c3bEntryRaw : Str := lit "@extends(\"par3b\")@push(\"s3\")PIECE@endpush"

def c3bParentRaw : Str := lit "@stack(\"s3\")"

def c3bEntry : ParsedFile := okOr (parseFile (lit "e3b") c3bEntryRaw)

def c3bParent : ParsedFile := okOr (parseFile (lit "par3b") c3bParentRaw)

def c3bFiles : List (Str × ParsedFile) := [(lit "e3b", c3bEntry), (lit "par3b", c3bParent)]

def c3OrphanRaw : Str := lit "@push(\"zz\")Q@endpush"

def c3Orphan : ParsedFile := okOr (parseFile (lit "o") c3OrphanRaw)

theorem orphanCheck_some : ∀ (ps : List (Str × List Str)) (entry : Str)
    (declared : List (Str × Str)) (m : Str),
    orphanCheck entry ps declared = some m ->
    ∃ n, n ∈ keysA ps ∧ lookupA declared n = none ∧
      m = missingStackMsg entry n ∧ n <:+: m := by
  intro ps
  induction ps with
  | nil => intro entry declared m h; cases h
  | cons kv rest ih =>
    intro entry declared m h
    rcases kv with ⟨n, vs⟩
    dsimp only [orphanCheck] at h
    cases hL : lookupA declared n with
    | some owner =>
      rw [hL] at h
      dsimp only at h
      obtain ⟨n2, hmem, hlook, hm, hinf⟩ := ih entry declared m h
      exact ⟨n2, List.mem_cons_of_mem _ hmem, hlook, hm, hinf⟩
    | none =>
      rw [hL] at h
      dsimp only at h
      cases h
      refine ⟨n, List.mem_cons_self _ _, hL, rfl, ?_⟩
      refine ⟨lit "[" ++ entry ++ lit "] missing stack \"", lit "\"", ?_⟩
      simp [missingStackMsg, List.append_assoc]

theorem orphanCheck_none : ∀ (ps : List (Str × List Str)) (entry : Str)
    (declared : List (Str × Str)),
    orphanCheck entry ps declared = none ->
    ∀ k ∈ keysA ps, lookupA declared k ≠ none := by
  intro ps
  induction ps with
  | nil => intro entry declared _ k hk; cases hk
  | cons kv rest ih =>
    intro entry declared h k hk
    rcases kv with ⟨n, vs⟩
    dsimp only [orphanCheck] at h
    cases hL : lookupA declared n with
    | none => rw [hL] at h; cases h
    | some owner =>
      rw [hL] at h
      dsimp only at h
      simp only [keysA, List.map, List.mem_cons] at hk
      rcases hk with hk | hk
      · rw [hk, hL]
        intro hc
        cases hc
      · exact ih entry declared h k hk

/-! ## Claim C3 -/

/-- C3 (counterexample): entry `e3` extends `par3` and itself declares the
drain point for stack `scr`; the parent pushes fragment `FRAG` to `scr`.
The entry-point compilation completes without error (the orphan check
passes because `scr` is declared), yet `FRAG` appears nowhere in the
composed text: the fragment was registered after the drain block had
already been emitted, so pushed content is silently lost. -/
theorem c3_push_lost_cex :
    parseFile (lit "e3") c3EntryRaw = .ok c3Entry ∧
    parseFile (lit "par3") c3ParentRaw = .ok c3Parent ∧
    c3Parent.PushStacks = [(lit "scr", [lit "FRAG"])] ∧
    compileEntry c3Files c3Entry 10 =
      .ok (lit "\n\x7b\x7b define \"__stack_scr\" \x7d\x7d\x7b\x7b end \x7d\x7d\nhello") ∧
    ¬ (lit "FRAG" <:+: okText (compileEntry c3Files c3Entry 10)) :=
  ⟨by decide, by decide, by decide, by decide, by decide⟩

/-- C3 (amended): a pushed fragment is drained only when it is registered
before its stack-s drain block is emitted.  In the spec-s scenario — child
`e3b` pushes `PIECE`, ancestor `par3b` declares the drain — the fragment
appears in the emitted drain block; in the reversed scenario of the
counterexample the resolution still succeeds and the fragment is lost; and
a push to a stack that no visited file declares makes the entry-point
compilation fail with the missing-stack error naming that stack. -/
theorem c3_push_drain_amended :
    (∀ (ps : List (Str × List Str)) (entry : Str) (declared : List (Str × Str)) (m : Str),
      orphanCheck entry ps declared = some m ->
      ∃ n, n ∈ keysA ps ∧ lookupA declared n = none ∧
        m = missingStackMsg entry n ∧ n <:+: m) ∧
    (∀ (ps : List (Str × List Str)) (entry : Str) (declared : List (Str × Str)),
      orphanCheck entry ps declared = none ->
      ∀ k ∈ keysA ps, lookupA declared k ≠ none) ∧
    parseFile (lit "e3b") c3bEntryRaw = .ok c3bEntry ∧
    parseFile (lit "par3b") c3bParentRaw = .ok c3bParent ∧
    c3bEntry.PushStacks = [(lit "s3", [lit "PIECE"])] ∧
    c3bParent.Stacks = [lit "s3"] ∧
    defineBlock stackNamePrefix (lit "s3") (lit "PIECE") <:+:
      okText (compileEntry c3bFiles c3bEntry 10) ∧
    parseFile (lit "o") c3OrphanRaw = .ok c3Orphan ∧
    compileEntry [(lit "o", c3Orphan)] c3Orphan 10 =
      .error (missingStackMsg (lit "o") (lit "zz")) ∧
    lit "zz" <:+: missingStackMsg (lit "o") (lit "zz") :=
  ⟨orphanCheck_some, orphanCheck_none, by decide, by decide, by decide, by decide,
   by decide, by decide, by decide, by decide⟩

/-- C3 (witness): the orphan-check characterization applied to a concrete
pending push into an undeclared stack. -/
theorem c3_push_drain_amended_witness :
    ∃ n, n ∈ keysA [(lit "zz", [lit "Q"])] ∧ lookupA ([] : List (Str × Str)) n = none ∧
      missingStackMsg (lit "o") (lit "zz") = missingStackMsg (lit "o") n ∧
      n <:+: missingStackMsg (lit "o") (lit "zz") :=
  c3_push_drain_amended.1 [(lit "zz", [lit "Q"])] (lit "o") []
    (missingStackMsg (lit "o") (lit "zz")) (by decide)

/-! ## Claim C10 -/

def c10Raw : Str := lit "@extends(\"a\") X @extends(\"b\") Y"

/-- C10: only the first `@extends` occurrence is recorded (in general, a
successful extraction records the normalized capture of the leftmost
match); on the two-occurrence input the first target `a` is recorded, and
the second occurrence survives verbatim inside the residual standalone
body. -/
theorem c10_first_extends_only :
    (∀ (nm raw : Str) (p : ParsedFile) (before cap after : Str),
      findFirstSimple (lit "@extends(") isPathChar raw = some (before, cap, after) ->
      parseFile nm raw = .ok p -> p.Extends = normalizeName cap) ∧
    parseFile (lit "e10") c10Raw = .ok
      { Name := lit "e10", Raw := c10Raw, Extends := lit "a", Includes := [],
        Yields := [], Sections := [], Stacks := [], PushStacks := [],
        StandaloneBody := lit "X @extends(\"b\") Y" } ∧
    lit "@extends(\"b\")" <:+: lit "X @extends(\"b\") Y" := by
  refine ⟨?_, by decide, by decide⟩
  intro nm raw p before cap after hfind hok
  obtain ⟨rest4, secs, rest5, pushes, _, _, hp⟩ := parseFile_ok_shape hok
  rw [hp]
  show (extendsPass raw).1 = normalizeName cap
  unfold extendsPass
  rw [hfind]

/-- C10 (witness): the general first-occurrence conjunct applied to a
two-occurrence input. -/
theorem c10_first_extends_only_witness :
    (okOr (parseFile (lit "w10") (lit "@extends(\"a\")@extends(\"b\")"))).Extends =
      normalizeName (lit "a") :=
  c10_first_extends_only.1 (lit "w10") (lit "@extends(\"a\")@extends(\"b\")")
    (okOr (parseFile (lit "w10") (lit "@extends(\"a\")@extends(\"b\")")))
    [] (lit "a") (lit "@extends(\"b\")") (by decide) (by decide)

/-! ## Claim C5 -/

def c5DupRaw : Str := lit "@include(\"x\")@include(\"x\")"

def c5TwoRaw : Str := lit "@include(\"x\")@include(\"y\")@include(\"x\")"

/-- C5 (counterexample): a file including target `x` twice records `x` only
once — `engine.go` stores includes into a Go map, so the duplicate
collapses and no two-element sequence exists. -/
theorem c5_includes_dup_cex :
    parseFile (lit "f5") c5DupRaw = .ok
      { Name := lit "f5", Raw := c5DupRaw, Extends := [], Includes := [lit "x"],
        Yields := [], Sections := [], Stacks := [], PushStacks := [],
        StandaloneBody :=
          lit "\x7b\x7b template \"__include_x\" . \x7d\x7d\x7b\x7b template \"__include_x\" . \x7d\x7d" } ∧
    (okOr (parseFile (lit "f5") c5DupRaw)).Includes.length ≠ 2 :=
  ⟨by decide, by decide⟩

theorem insertSet_nodup {k : Str} {s : List Str} (h : s.Nodup) :
    (insertSet k s).Nodup := by
  unfold insertSet
  by_cases hk : k ∈ s
  · rw [if_pos hk]
    exact h
  · rw [if_neg hk]
    simp [List.nodup_append, h, hk]

theorem rewriteIncludesGo_nodup :
    ∀ (fuel : Nat) (s : Str) (inc : List Str), inc.Nodup ->
      (rewriteIncludesGo fuel s inc).2.Nodup := by
  intro fuel
  induction fuel with
  | zero => intro s inc h; exact h
  | succ fuel ih =>
    intro s inc h
    cases s with
    | nil => exact h
    | cons c cs =>
      dsimp only [rewriteIncludesGo]
      cases hM : matchIncludeAt (c :: cs) with
      | none =>
        dsimp only
        rcases hR : rewriteIncludesGo fuel cs inc with ⟨t2, i2⟩
        have := ih cs inc h
        rw [hR] at this
        exact this
      | some x =>
        rcases x with ⟨cap, pl, rest⟩
        dsimp only
        rcases hR : rewriteIncludesGo fuel rest (insertSet (normalizeName cap) inc) with ⟨t2, i2⟩
        have := ih rest (insertSet (normalizeName cap) inc) (insertSet_nodup h)
        rw [hR] at this
        exact this

/-- C5 (amended): extraction records the *set* of distinct normalized
include targets — in general the recorded collection never holds a
duplicate, and on an input with targets `x`, `y`, `x` exactly the two
distinct targets are recorded. -/
theorem c5_includes_set_amended :
    (∀ (nm raw : Str) (p : ParsedFile), parseFile nm raw = .ok p ->
      p.Includes.Nodup) ∧
    (okOr (parseFile (lit "f5b") c5TwoRaw)).Includes.length = 2 ∧
    lit "x" ∈ (okOr (parseFile (lit "f5b") c5TwoRaw)).Includes ∧
    lit "y" ∈ (okOr (parseFile (lit "f5b") c5TwoRaw)).Includes := by
  refine ⟨?_, by decide, by decide, by decide⟩
  intro nm raw p hok
  obtain ⟨rest4, secs, rest5, pushes, _, _, hp⟩ := parseFile_ok_shape hok
  rw [hp]
  show (rewriteIncludes (rewriteStacks (rewriteYields (extendsPass raw).2).1).1).2.Nodup
  unfold rewriteIncludes
  exact rewriteIncludesGo_nodup _ _ [] List.nodup_nil

/-- C5 (witness): the no-duplicates conjunct applied to the concrete
three-occurrence input. -/
theorem c5_includes_set_amended_witness :
    (okOr (parseFile (lit "f5b") c5TwoRaw)).Includes.Nodup :=
  c5_includes_set_amended.1 (lit "f5b") c5TwoRaw
    (okOr (parseFile (lit "f5b") c5TwoRaw)) (by decide)

/-! ## Claim C9 -/

/-- Every error-carrying result of the resolver interpreter has empty
composed text: each Go `return "", err` site pairs the error with the
empty string, and success never carries an error. -/
theorem step_err_empty : ∀ (fuel : Nat) (job : Job) (ctx : CompileContext),
    ((step fuel job ctx).2.2).isSome = true -> (step fuel job ctx).1 = [] := by
  intro fuel
  induction fuel with
  | zero => intro job ctx _; rfl
  | succ fuel ih =>
    intro job ctx h
    cases job with
    | includesLoop fn names acc =>
      cases names with
      | nil => simp [step] at h
      | cons n ns =>
        simp only [step] at h ⊢
        cases hL : lookupA ctx.Files n with
        | none => simp [hL]
        | some q =>
          simp only [hL] at h ⊢
          rcases hS : step fuel (Job.file q) ctx with ⟨t, ctx2, err⟩
          simp only [hS] at h ⊢
          cases err with
          | some e => rfl
          | none => exact ih _ _ h
    | file p =>
      simp only [step] at h ⊢
      rcases hd : drainStacks p.Name p.Stacks (registerPushes p.PushStacks ctx) [] with
        ⟨out1, ctx2, derr⟩
      simp only [hd] at h ⊢
      cases derr with
      | some e => rfl
      | none =>
        rcases hE : emitSections p.Sections ctx2 out1 with ⟨out2, ctx3⟩
        simp only [hE] at h ⊢
        rcases hY : registerYields p.Name p.Yields ctx3 with ⟨ctx4, yerr⟩
        simp only [hY] at h ⊢
        cases yerr with
        | some e => rfl
        | none =>
          by_cases hx : p.Extends = []
          · simp only [if_pos hx] at h ⊢
            rcases hI : step fuel (Job.includesLoop p.Name p.Includes out2) ctx4 with
              ⟨t, ctx5, ierr⟩
            simp only [hI] at h ⊢
            cases ierr with
            | some e => rfl
            | none => simp at h
          · simp only [if_neg hx] at h ⊢
            cases hL : lookupA ctx4.Files p.Extends with
            | none => simp [hL]
            | some parent =>
              simp only [hL] at h ⊢
              rcases hP : step fuel (Job.file parent) ctx4 with ⟨pt, ctx5, perr⟩
              simp only [hP] at h ⊢
              cases perr with
              | some e => rfl
              | none =>
                rcases hI : step fuel (Job.includesLoop p.Name p.Includes (out2 ++ pt)) ctx5 with
                  ⟨t, ctx6, ierr⟩
                simp only [hI] at h ⊢
                cases ierr with
                | some e => rfl
                | none => simp at h

/-- C9: whenever the resolver returns a non-nil error — its own compile
errors or one propagated from a recursive call — the composed-text string
it returns alongside is empty. -/
theorem c9_error_empty_output (p : ParsedFile) (ctx : CompileContext) (fuel : Nat)
    (e : Str) (h : (ToTemplateString p ctx fuel).2.2 = some e) :
    (ToTemplateString p ctx fuel).1 = [] := by
  unfold ToTemplateString at h ⊢
  exact step_err_empty fuel (Job.file p) ctx (by rw [h]; rfl)

/-- C9 (witness): the empty-output-on-error property applied to a file
extending an absent target. -/
theorem c9_error_empty_output_witness :
    (ToTemplateString (okOr (parseFile (lit "g9") (lit "@extends(\"ghost\")hello")))
      (freshCtx []) 10).1 = [] :=
  c9_error_empty_output (okOr (parseFile (lit "g9") (lit "@extends(\"ghost\")hello")))
    (freshCtx []) 10 (missingExtendsMsg (lit "g9") (lit "ghost")) (by decide)

/-! ## Claim C6 -/

theorem dupYieldMsg_names (fn n prior : Str) :
    fn <:+: dupYieldMsg fn n prior ∧ prior <:+: dupYieldMsg fn n prior := by
  constructor
  · refine ⟨lit "[", lit "] duplicate yield name \"" ++ n ++
      lit "\", already defined in file \"" ++ prior ++ lit "\"", ?_⟩
    simp [dupYieldMsg, List.append_assoc]
  · refine ⟨lit "[" ++ fn ++ lit "] duplicate yield name \"" ++ n ++
      lit "\", already defined in file \"", lit "\"", ?_⟩
    simp [dupYieldMsg, List.append_assoc]

theorem dupStackMsg_names (fn n prior : Str) :
    fn <:+: dupStackMsg fn n prior ∧ prior <:+: dupStackMsg fn n prior := by
  constructor
  · refine ⟨lit "[", lit "] duplicate stack name \"" ++ n ++
      lit "\", already defined in file \"" ++ prior ++ lit "\"", ?_⟩
    simp [dupStackMsg, List.append_assoc]
  · refine ⟨lit "[" ++ fn ++ lit "] duplicate stack name \"" ++ n ++
      lit "\", already defined in file \"", lit "\"", ?_⟩
    simp [dupStackMsg, List.append_assoc]

theorem registerYields_err_msg : ∀ (ys : List (Str × Str)) (fn : Str)
    (ctx : CompileContext) (m : Str),
    (registerYields fn ys ctx).2 = some m ->
    ∃ n prior, m = dupYieldMsg fn n prior ∧ fn <:+: m ∧ prior <:+: m := by
  intro ys
  induction ys with
  | nil => intro fn ctx m h; simp [registerYields] at h
  | cons nd rest ih =>
    intro fn ctx m h
    rcases nd with ⟨n, d⟩
    dsimp only [registerYields] at h
    cases hL : lookupA ctx.Yields n with
    | some info =>
      rw [hL] at h
      dsimp only at h
      cases h
      exact ⟨n, info.FileName, rfl, dupYieldMsg_names fn n info.FileName⟩
    | none =>
      rw [hL] at h
      dsimp only at h
      exact ih fn _ m h

theorem drainStacks_err_msg : ∀ (ns : List Str) (fn : Str)
    (ctx : CompileContext) (acc : Str) (m : Str),
    (drainStacks fn ns ctx acc).2.2 = some m ->
    ∃ n prior, m = dupStackMsg fn n prior ∧ fn <:+: m ∧ prior <:+: m := by
  intro ns
  induction ns with
  | nil => intro fn ctx acc m h; simp [drainStacks] at h
  | cons n rest ih =>
    intro fn ctx acc m h
    dsimp only [drainStacks] at h
    cases hL : lookupA ctx.Stacks n with
    | some prior =>
      rw [hL] at h
      dsimp only at h
      cases h
      exact ⟨n, prior, rfl, dupStackMsg_names fn n prior⟩
    | none =>
      rw [hL] at h
      dsimp only at h
      exact ih fn _ _ m h

def c6EntryRaw : Str := lit "@include(\"alpha\")@include(\"beta\")"

def c6AlphaRaw : Str := lit "@yield(\"x\")"

def c6BetaRaw : Str := lit "@yield(\"x\",\"d\")"

def c6Entry : ParsedFile := okOr (parseFile (lit "e6") c6EntryRaw)

def c6Alpha : ParsedFile := okOr (parseFile (lit "alpha") c6AlphaRaw)

def c6Beta : ParsedFile := okOr (parseFile (lit "beta") c6BetaRaw)

def c6Files : List (Str × ParsedFile) :=
  [(lit "e6", c6Entry), (lit "alpha", c6Alpha), (lit "beta", c6Beta)]

def c6ChildRaw : Str := lit "@extends(\"parentfile\")@stack(\"s\")"

def c6ParRaw : Str := lit "@stack(\"s\")"

def c6Child : ParsedFile := okOr (parseFile (lit "childfile") c6ChildRaw)

def c6Par : ParsedFile := okOr (parseFile (lit "parentfile") c6ParRaw)

def c6StackFiles : List (Str × ParsedFile) :=
  [(lit "childfile", c6Child), (lit "parentfile", c6Par)]

/-- C6: a second registration of a yield name, or a second declaration of a
stack drain, fails with a message naming both the file attempting it and
the prior owner.  In general every duplicate-yield and duplicate-stack
error message embeds both file names; concretely, sibling includes `alpha`
and `beta` both yielding `x` fail naming `beta` and `alpha`, and a chain
where `childfile` and `parentfile` both declare stack `s` fails naming
`parentfile` and `childfile`. -/
theorem c6_duplicate_names_both_files :
    (∀ (ys : List (Str × Str)) (fn : Str) (ctx : CompileContext) (m : Str),
      (registerYields fn ys ctx).2 = some m ->
      fn <:+: m ∧ (∃ n prior, m = dupYieldMsg fn n prior ∧ prior <:+: m)) ∧
    (∀ (ns : List Str) (fn : Str) (ctx : CompileContext) (acc : Str) (m : Str),
      (drainStacks fn ns ctx acc).2.2 = some m ->
      fn <:+: m ∧ (∃ n prior, m = dupStackMsg fn n prior ∧ prior <:+: m)) ∧
    compileEntry c6Files c6Entry 10 =
      .error (dupYieldMsg (lit "beta") (lit "x") (lit "alpha")) ∧
    lit "beta" <:+: dupYieldMsg (lit "beta") (lit "x") (lit "alpha") ∧
    lit "alpha" <:+: dupYieldMsg (lit "beta") (lit "x") (lit "alpha") ∧
    compileEntry c6StackFiles c6Child 10 =
      .error (dupStackMsg (lit "parentfile") (lit "s") (lit "childfile")) ∧
    lit "parentfile" <:+: dupStackMsg (lit "parentfile") (lit "s") (lit "childfile") ∧
    lit "childfile" <:+: dupStackMsg (lit "parentfile") (lit "s") (lit "childfile") := by
  refine ⟨?_, ?_, by decide, by decide, by decide, by decide, by decide, by decide⟩
  · intro ys fn ctx m h
    obtain ⟨n, prior, hm, h1, h2⟩ := registerYields_err_msg ys fn ctx m h
    exact ⟨h1, n, prior, hm, h2⟩
  · intro ns fn ctx acc m h
    obtain ⟨n, prior, hm, h1, h2⟩ := drainStacks_err_msg ns fn ctx acc m h
    exact ⟨h1, n, prior, hm, h2⟩

/-- C6 (witness): the general duplicate-yield conjunct applied to a
context in which `x` is already owned by `alpha` and file `beta`
re-registers it. -/
theorem c6_duplicate_names_both_files_witness :
    lit "beta" <:+: dupYieldMsg (lit "beta") (lit "x") (lit "alpha") ∧
    (∃ n prior,
      dupYieldMsg (lit "beta") (lit "x") (lit "alpha") = dupYieldMsg (lit "beta") n prior ∧
      prior <:+: dupYieldMsg (lit "beta") (lit "x") (lit "alpha")) :=
  c6_duplicate_names_both_files.1 [(lit "x", lit "d")] (lit "beta")
    { Files := [], FilledYields := [], Stacks := [], PushStacks := [],
      Yields := [(lit "x", { Name := lit "x", FileName := lit "alpha", Default := [] })] }
    (dupYieldMsg (lit "beta") (lit "x") (lit "alpha")) (by decide)

/-! ## State-preservation lemmas for the pre-extends resolver steps -/

theorem lookupA_append {A : Type} (l1 l2 : List (Str × A)) (k : Str) :
    lookupA (l1 ++ l2) k =
      match lookupA l1 k with
      | some v => some v
      | none => lookupA l2 k := by
  induction l1 with
  | nil => rfl
  | cons kv rest ih =>
    rcases kv with ⟨k2, v2⟩
    dsimp only [lookupA, List.cons_append]
    by_cases hk : k2 = k
    · rw [if_pos hk, if_pos hk]
    · rw [if_neg hk, if_neg hk]
      exact ih

theorem registerPushes_pres : ∀ (l : List (Str × List Str)) (ctx : CompileContext),
    (registerPushes l ctx).Files = ctx.Files ∧
    (registerPushes l ctx).Stacks = ctx.Stacks ∧
    (registerPushes l ctx).Yields = ctx.Yields := by
  intro l
  induction l with
  | nil => intro ctx; exact ⟨rfl, rfl, rfl⟩
  | cons kv rest ih =>
    intro ctx
    rcases kv with ⟨n, vs⟩
    exact ih _

theorem drainStacks_ok : ∀ (ns : List Str) (fn : Str) (ctx : CompileContext) (acc : Str),
    ns.Nodup -> (∀ n ∈ ns, lookupA ctx.Stacks n = none) ->
    (drainStacks fn ns ctx acc).2.2 = none ∧
    (drainStacks fn ns ctx acc).2.1.Files = ctx.Files ∧
    (drainStacks fn ns ctx acc).2.1.Yields = ctx.Yields := by
  intro ns
  induction ns with
  | nil => intro fn ctx acc _ _; exact ⟨rfl, rfl, rfl⟩
  | cons n rest ih =>
    intro fn ctx acc hnd hnone
    dsimp only [drainStacks]
    rw [hnone n (List.mem_cons_self n rest)]
    dsimp only
    have hrest : ∀ m ∈ rest, lookupA (ctx.Stacks ++ [(n, fn)]) m = none := by
      intro m hm
      rw [lookupA_append]
      rw [hnone m (List.mem_cons_of_mem n hm)]
      dsimp only [lookupA]
      rw [if_neg (fun hEq : n = m => (List.nodup_cons.mp hnd).1 (hEq ▸ hm))]
    exact ih fn _ _ (List.nodup_cons.mp hnd).2 hrest

theorem emitSections_pres : ∀ (secs : List (Str × Str)) (ctx : CompileContext) (acc : Str),
    (emitSections secs ctx acc).2.Files = ctx.Files ∧
    (emitSections secs ctx acc).2.Yields = ctx.Yields ∧
    (emitSections secs ctx acc).2.Stacks = ctx.Stacks := by
  intro secs
  induction secs with
  | nil => intro ctx acc; exact ⟨rfl, rfl, rfl⟩
  | cons kv rest ih =>
    intro ctx acc
    rcases kv with ⟨n, content⟩
    dsimp only [emitSections]
    by_cases hn : n ∈ ctx.FilledYields
    · rw [if_pos hn]
      exact ih _ _
    · rw [if_neg hn]
      exact ih _ _

theorem registerYields_ok : ∀ (ys : List (Str × Str)) (fn : Str) (ctx : CompileContext),
    (ys.map Prod.fst).Nodup -> (∀ x ∈ ys, lookupA ctx.Yields x.1 = none) ->
    (registerYields fn ys ctx).2 = none ∧
    (registerYields fn ys ctx).1.Files = ctx.Files := by
  intro ys
  induction ys with
  | nil => intro fn ctx _ _; exact ⟨rfl, rfl⟩
  | cons nd rest ih =>
    intro fn ctx hnd hnone
    rcases nd with ⟨n, d⟩
    dsimp only [registerYields]
    rw [hnone (n, d) (List.mem_cons_self _ rest)]
    dsimp only
    have hrest : ∀ x ∈ rest,
        lookupA (ctx.Yields ++ [(n, { Name := n, FileName := fn, Default := d })]) x.1 = none := by
      intro x hx
      rw [lookupA_append]
      rw [hnone x (List.mem_cons_of_mem _ hx)]
      dsimp only [lookupA]
      rw [if_neg ?_]
      intro hEq
      rw [List.map_cons, List.nodup_cons] at hnd
      apply hnd.1
      rw [hEq]
      exact List.mem_map.mpr ⟨x, hx, rfl⟩
    rw [List.map_cons, List.nodup_cons] at hnd
    exact ih fn _ hnd.2 hrest

/-! ## Claim C8 -/

def c8GhostRaw : Str := lit "@extends(\"ghost\")hello"

def c8Ghost : ParsedFile := okOr (parseFile (lit "g") c8GhostRaw)

/-- C8: resolving, with the fresh per-entry context, a file whose extends
target is absent from the known files table fails with the
missing-extends error referencing the target, returns no composed text,
and the entry-point compilation produces an error rather than a template.
The `Nodup` hypotheses record that a Go map cannot hold a key twice. -/
theorem c8_missing_extends (files : List (Str × ParsedFile)) (p : ParsedFile) (fuel : Nat)
    (hnd1 : p.Stacks.Nodup) (hnd2 : (p.Yields.map Prod.fst).Nodup)
    (hne : p.Extends ≠ []) (hmiss : lookupA files p.Extends = none) :
    (ToTemplateString p (freshCtx files) (fuel + 1)).1 = [] ∧
    (ToTemplateString p (freshCtx files) (fuel + 1)).2.2 =
      some (missingExtendsMsg p.Name p.Extends) ∧
    p.Extends <:+: missingExtendsMsg p.Name p.Extends ∧
    compileEntry files p (fuel + 1) = .error (missingExtendsMsg p.Name p.Extends) := by
  have hpres := registerPushes_pres p.PushStacks (freshCtx files)
  rcases hd : drainStacks p.Name p.Stacks (registerPushes p.PushStacks (freshCtx files)) []
    with ⟨out1, ctx2, derr⟩
  have hdok := drainStacks_ok p.Stacks p.Name
    (registerPushes p.PushStacks (freshCtx files)) [] hnd1
    (by intro n _; rw [hpres.2.1]; rfl)
  rw [hd] at hdok
  obtain ⟨hderr, hdFiles, hdYields⟩ := hdok
  dsimp only at hderr hdFiles hdYields
  subst hderr
  rcases hE : emitSections p.Sections ctx2 out1 with ⟨out2, ctx3⟩
  have hepres := emitSections_pres p.Sections ctx2 out1
  rw [hE] at hepres
  dsimp only at hepres
  rcases hY : registerYields p.Name p.Yields ctx3 with ⟨ctx4, yerr⟩
  have hyok := registerYields_ok p.Yields p.Name ctx3 hnd2
    (by intro x _; rw [hepres.2.1, hdYields, hpres.2.2]; rfl)
  rw [hY] at hyok
  obtain ⟨hyerr, hyFiles⟩ := hyok
  dsimp only at hyerr hyFiles
  subst hyerr
  have hfull : step (fuel + 1) (Job.file p) (freshCtx files) =
      ([], ctx4, some (missingExtendsMsg p.Name p.Extends)) := by
    simp only [step]
    rw [hd]
    dsimp only
    rw [hE]
    dsimp only
    rw [hY]
    dsimp only
    rw [if_neg hne]
    have : lookupA ctx4.Files p.Extends = none := by
      rw [hyFiles, hepres.1, hdFiles, hpres.1]
      exact hmiss
    rw [this]
  have hinfix : p.Extends <:+: missingExtendsMsg p.Name p.Extends := by
    refine ⟨lit "[" ++ p.Name ++ lit "] template \"",
      lit "\" not found to extends", ?_⟩
    simp [missingExtendsMsg, List.append_assoc]
  refine ⟨?_, ?_, hinfix, ?_⟩
  · unfold ToTemplateString
    rw [hfull]
  · unfold ToTemplateString
    rw [hfull]
  · unfold compileEntry ToTemplateString
    rw [hfull]

/-- C8 (witness): the missing-extends theorem applied to the concrete file
`g` extending the absent `ghost`. -/
theorem c8_missing_extends_witness :
    (ToTemplateString c8Ghost (freshCtx [(lit "g", c8Ghost)]) 10).1 = [] ∧
    (ToTemplateString c8Ghost (freshCtx [(lit "g", c8Ghost)]) 10).2.2 =
      some (missingExtendsMsg c8Ghost.Name c8Ghost.Extends) ∧
    c8Ghost.Extends <:+: missingExtendsMsg c8Ghost.Name c8Ghost.Extends ∧
    compileEntry [(lit "g", c8Ghost)] c8Ghost 10 =
      .error (missingExtendsMsg c8Ghost.Name c8Ghost.Extends) :=
  c8_missing_extends [(lit "g", c8Ghost)] c8Ghost 9
    (by decide) (by decide) (by decide) (by decide)

/-! ## Claim C7: groundwork -/

/-- Name-class characters are not Go whitespace. -/
theorem name_not_space {c : Char} (h : isNameChar c = true) : isSpaceGo c = false := by
  by_contra hs
  rw [Bool.not_eq_false] at hs
  simp only [isSpaceGo, Bool.or_eq_true, beq_iff_eq] at hs
  rcases hs with ((((((h2 | h2) | h2) | h2) | h2) | h2) | h2) | h2 <;> subst h2 <;>
    exact absurd h (by decide)

theorem name_not_cut {c : Char} (h : isNameChar c = true) : isTrimCut c = false := by
  by_contra hs
  rw [Bool.not_eq_false] at hs
  simp only [isTrimCut, Bool.or_eq_true, beq_iff_eq] at hs
  rcases hs with (h2 | h2) | h2 <;> subst h2 <;> exact absurd h (by decide)

theorem name_not_dot {c : Char} (h : isNameChar c = true) : c ≠ Char.ofNat 46 := by
  intro h2
  subst h2
  exact absurd h (by decide)

/-- A string of name-class characters is its own normal form: nothing to
trim and no extension to strip. -/
theorem normalizeName_id_name {s : Str} (h : ∀ c ∈ s, isNameChar c = true) :
    normalizeName s = s := by
  have h1 : trimWhile isSpaceGo s = s := by
    refine trimWhile_eq_self ?_ ?_
    · intro c cs hEq
      exact name_not_space (h c (hEq ▸ List.mem_cons_self c cs))
    · intro c cs hEq
      exact name_not_space (h c (List.mem_reverse.mp (hEq ▸ List.mem_cons_self c cs)))
  have h2 : trimWhile isTrimCut s = s := by
    refine trimWhile_eq_self ?_ ?_
    · intro c cs hEq
      exact name_not_cut (h c (hEq ▸ List.mem_cons_self c cs))
    · intro c cs hEq
      exact name_not_cut (h c (List.mem_reverse.mp (hEq ▸ List.mem_cons_self c cs)))
  have h3 : extOf s = [] := extOf_eq_nil fun c hc => name_not_dot (h c hc)
  show trimSuffixGo (trimWhile isTrimCut (trimWhile isSpaceGo s))
      (extOf (trimWhile isTrimCut (trimWhile isSpaceGo s))) = s
  rw [h1, h2, h3, trimSuffixGo_nil]

/-- The name captured by a simple directive match lies in its class. -/
theorem matchSimpleAt_cap {kw : Str} {cls : Char -> Bool} {s cap rest : Str}
    (h : matchSimpleAt kw cls s = some (cap, rest)) : ∀ c ∈ cap, cls c = true := by
  unfold matchSimpleAt at h
  dsimp only [takeClass] at h
  repeat' split at h
  all_goals try cases h
  all_goals exact fun c hc => List.mem_takeWhile_imp hc

/-- The name captured by a `@yield`/`@section` match is in the name class. -/
theorem matchOptDefaultAt_cap {kw : Str} {s cap : Str} {d : Option Str} {rest : Str}
    (h : matchOptDefaultAt kw s = some (cap, d, rest)) : ∀ c ∈ cap, isNameChar c = true := by
  unfold matchOptDefaultAt at h
  dsimp only [takeClass] at h
  repeat' split at h
  all_goals try cases h
  all_goals exact fun c hc => List.mem_takeWhile_imp hc

/-- The target captured by an `@include` match is in the path class. -/
theorem matchIncludeAt_cap {s cap : Str} {d : Option Str} {rest : Str}
    (h : matchIncludeAt s = some (cap, d, rest)) : ∀ c ∈ cap, isPathChar c = true := by
  unfold matchIncludeAt at h
  dsimp only [takeClass] at h
  repeat' split at h
  all_goals try cases h
  all_goals exact fun c hc => List.mem_takeWhile_imp hc

theorem findFirstSimple_cap {kw : Str} {cls : Char -> Bool} :
    ∀ {s before cap after : Str},
      findFirstSimple kw cls s = some (before, cap, after) -> ∀ c ∈ cap, cls c = true := by
  intro s
  induction s with
  | nil => intro before cap after h; cases h
  | cons c0 cs ih =>
    intro before cap after h
    dsimp only [findFirstSimple] at h
    cases hM : matchSimpleAt kw cls (c0 :: cs) with
    | some x =>
      rcases x with ⟨cap2, rest2⟩
      rw [hM] at h
      dsimp only at h
      cases h
      exact matchSimpleAt_cap hM
    | none =>
      rw [hM] at h
      dsimp only at h
      cases hF : findFirstSimple kw cls cs with
      | none => rw [hF] at h; cases h
      | some y =>
        rcases y with ⟨b2, c2, a2⟩
        rw [hF] at h
        dsimp only [Option.map] at h
        cases h
        exact ih hF

theorem findFirstOptDir_cap {kw : Str} :
    ∀ {s before name : Str} {inl : Option Str} {after : Str},
      findFirstOptDir kw s = some (before, name, inl, after) ->
      ∀ c ∈ name, isNameChar c = true := by
  intro s
  induction s with
  | nil => intro before name inl after h; cases h
  | cons c0 cs ih =>
    intro before name inl after h
    dsimp only [findFirstOptDir] at h
    cases hM : matchOptDefaultAt kw (c0 :: cs) with
    | some x =>
      rcases x with ⟨cap2, d2, rest2⟩
      rw [hM] at h
      dsimp only at h
      cases h
      exact matchOptDefaultAt_cap hM
    | none =>
      rw [hM] at h
      dsimp only at h
      cases hF : findFirstOptDir kw cs with
      | none => rw [hF] at h; cases h
      | some y =>
        rcases y with ⟨b2, n2, i2, a2⟩
        rw [hF] at h
        dsimp only [Option.map] at h
        cases h
        exact ih hF

theorem keysA_upsert {A : Type} {k2 k : Str} {v : A} {m : List (Str × A)}
    (h : k2 ∈ keysA (upsertA k v m)) : k2 = k ∨ k2 ∈ keysA m := by
  induction m with
  | nil =>
    simp only [upsertA, keysA, List.map, List.mem_singleton] at h
    exact Or.inl h
  | cons kv rest ih =>
    rcases kv with ⟨k3, v3⟩
    dsimp only [upsertA] at h
    by_cases hk : k3 = k
    · rw [if_pos hk] at h
      simp only [keysA, List.map, List.mem_cons] at h ⊢
      rcases h with h1 | h1
      · exact Or.inl h1
      · exact Or.inr (Or.inr h1)
    · rw [if_neg hk] at h
      simp only [keysA, List.map, List.mem_cons] at h ⊢
      rcases h with h1 | h1
      · exact Or.inr (Or.inl h1)
      · rcases ih h1 with h2 | h2
        · exact Or.inl h2
        · exact Or.inr (Or.inr h2)

theorem keysA_appendAt {k2 k : Str} {vs : List Str} {m : List (Str × List Str)}
    (h : k2 ∈ keysA (appendAt k vs m)) : k2 = k ∨ k2 ∈ keysA m := by
  induction m with
  | nil =>
    simp only [appendAt, keysA, List.map, List.mem_singleton] at h
    exact Or.inl h
  | cons kv rest ih =>
    rcases kv with ⟨k3, v3⟩
    dsimp only [appendAt] at h
    by_cases hk : k3 = k
    · rw [if_pos hk] at h
      simp only [keysA, List.map, List.mem_cons] at h ⊢
      rcases h with h1 | h1
      · exact Or.inr (Or.inl h1)
      · exact Or.inr (Or.inr h1)
    · rw [if_neg hk] at h
      simp only [keysA, List.map, List.mem_cons] at h ⊢
      rcases h with h1 | h1
      · exact Or.inr (Or.inl h1)
      · rcases ih h1 with h2 | h2
        · exact Or.inl h2
        · exact Or.inr (Or.inr h2)

theorem mem_insertSet {k2 k : Str} {m : List Str} (h : k2 ∈ insertSet k m) :
    k2 = k ∨ k2 ∈ m := by
  unfold insertSet at h
  by_cases hk : k ∈ m
  · rw [if_pos hk] at h
    exact Or.inr h
  · rw [if_neg hk] at h
    rcases List.mem_append.mp h with h1 | h1
    · exact Or.inr h1
    · exact Or.inl (List.mem_singleton.mp h1)

/-- Every yield key the rewriting pass records is the normalized form of a
name-class capture. -/
theorem rewriteYieldsGo_keys : ∀ (fuel : Nat) (s : Str) (ys : List (Str × Str)),
    (∀ k ∈ keysA ys, ∃ cap, (∀ c ∈ cap, isNameChar c = true) ∧ k = normalizeName cap) ->
    ∀ k ∈ keysA (rewriteYieldsGo fuel s ys).2,
      ∃ cap, (∀ c ∈ cap, isNameChar c = true) ∧ k = normalizeName cap := by
  intro fuel
  induction fuel with
  | zero => intro s ys h; exact h
  | succ fuel ih =>
    intro s ys h
    cases s with
    | nil => exact h
    | cons c cs =>
      dsimp only [rewriteYieldsGo]
      cases hM : matchOptDefaultAt (lit "@yield(") (c :: cs) with
      | none =>
        dsimp only
        rcases hR : rewriteYieldsGo fuel cs ys with ⟨tail, ys2⟩
        have := ih cs ys h
        rw [hR] at this
        exact this
      | some x =>
        rcases x with ⟨cap, d, rest⟩
        dsimp only
        rcases hR : rewriteYieldsGo fuel rest (upsertA (normalizeName cap) (d.getD []) ys)
          with ⟨tail, ys2⟩
        have harg : ∀ k2 ∈ keysA (upsertA (normalizeName cap) (d.getD []) ys),
            ∃ cap2, (∀ c2 ∈ cap2, isNameChar c2 = true) ∧ k2 = normalizeName cap2 := by
          intro k2 hk2
          rcases keysA_upsert hk2 with hEq | hmem
          · exact ⟨cap, matchOptDefaultAt_cap hM, hEq⟩
          · exact h k2 hmem
        have := ih rest _ harg
        rw [hR] at this
        exact this

/-- Every stack name the rewriting pass records is the normalized form of a
name-class capture. -/
theorem rewriteStacksGo_keys : ∀ (fuel : Nat) (s : Str) (st : List Str),
    (∀ k ∈ st, ∃ cap, (∀ c ∈ cap, isNameChar c = true) ∧ k = normalizeName cap) ->
    ∀ k ∈ (rewriteStacksGo fuel s st).2,
      ∃ cap, (∀ c ∈ cap, isNameChar c = true) ∧ k = normalizeName cap := by
  intro fuel
  induction fuel with
  | zero => intro s st h; exact h
  | succ fuel ih =>
    intro s st h
    cases s with
    | nil => exact h
    | cons c cs =>
      dsimp only [rewriteStacksGo]
      cases hM : matchSimpleAt (lit "@stack(") isNameChar (c :: cs) with
      | none =>
        dsimp only
        rcases hR : rewriteStacksGo fuel cs st with ⟨tail, st2⟩
        have := ih cs st h
        rw [hR] at this
        exact this
      | some x =>
        rcases x with ⟨cap, rest⟩
        dsimp only
        rcases hR : rewriteStacksGo fuel rest (insertSet (normalizeName cap) st)
          with ⟨tail, st2⟩
        have harg : ∀ k2 ∈ insertSet (normalizeName cap) st,
            ∃ cap2, (∀ c2 ∈ cap2, isNameChar c2 = true) ∧ k2 = normalizeName cap2 := by
          intro k2 hk2
          rcases mem_insertSet hk2 with hEq | hmem
          · exact ⟨cap, matchSimpleAt_cap hM, hEq⟩
          · exact h k2 hmem
        have := ih rest _ harg
        rw [hR] at this
        exact this

/-- Every include target the rewriting pass records is the normalized form
of a path-class capture. -/
theorem rewriteIncludesGo_keys : ∀ (fuel : Nat) (s : Str) (inc : List Str),
    (∀ k ∈ inc, ∃ cap, (∀ c ∈ cap, isPathChar c = true) ∧ k = normalizeName cap) ->
    ∀ k ∈ (rewriteIncludesGo fuel s inc).2,
      ∃ cap, (∀ c ∈ cap, isPathChar c = true) ∧ k = normalizeName cap := by
  intro fuel
  induction fuel with
  | zero => intro s inc h; exact h
  | succ fuel ih =>
    intro s inc h
    cases s with
    | nil => exact h
    | cons c cs =>
      dsimp only [rewriteIncludesGo]
      cases hM : matchIncludeAt (c :: cs) with
      | none =>
        dsimp only
        rcases hR : rewriteIncludesGo fuel cs inc with ⟨tail, inc2⟩
        have := ih cs inc h
        rw [hR] at this
        exact this
      | some x =>
        rcases x with ⟨cap, pl, rest⟩
        dsimp only
        rcases hR : rewriteIncludesGo fuel rest (insertSet (normalizeName cap) inc)
          with ⟨tail, inc2⟩
        have harg : ∀ k2 ∈ insertSet (normalizeName cap) inc,
            ∃ cap2, (∀ c2 ∈ cap2, isPathChar c2 = true) ∧ k2 = normalizeName cap2 := by
          intro k2 hk2
          rcases mem_insertSet hk2 with hEq | hmem
          · exact ⟨cap, matchIncludeAt_cap hM, hEq⟩
          · exact h k2 hmem
        have := ih rest _ harg
        rw [hR] at this
        exact this

/-- Every section name the extraction loop records is a name-class string
(stored raw, exactly as captured). -/
theorem extractSectionsGo_keys : ∀ (fuel : Nat) (fn s : Str) (secs : List (Str × Str))
    (rest4 : Str) (secs2 : List (Str × Str)),
    extractSectionsGo fn fuel s secs = .ok (rest4, secs2) ->
    (∀ k ∈ keysA secs, ∀ c ∈ k, isNameChar c = true) ->
    ∀ k ∈ keysA secs2, ∀ c ∈ k, isNameChar c = true := by
  intro fuel
  induction fuel with
  | zero =>
    intro fn s secs rest4 secs2 h hbase
    cases h
    exact hbase
  | succ fuel ih =>
    intro fn s secs rest4 secs2 h hbase
    dsimp only [extractSectionsGo] at h
    cases hF : findFirstOptDir (lit "@section(") s with
    | none =>
      rw [hF] at h
      cases h
      exact hbase
    | some x =>
      rcases x with ⟨before, name, inl, rest⟩
      rw [hF] at h
      cases inl with
      | some content =>
        dsimp only at h
        refine ih fn _ _ rest4 secs2 h ?_
        intro k hk
        rcases keysA_upsert hk with hEq | hmem
        · exact hEq ▸ findFirstOptDir_cap hF
        · exact hbase k hmem
      | none =>
        dsimp only at h
        cases hL : findLit (lit "@endsection") rest with
        | none => rw [hL] at h; cases h
        | some y =>
          rcases y with ⟨content, after⟩
          rw [hL] at h
          dsimp only at h
          refine ih fn _ _ rest4 secs2 h ?_
          intro k hk
          rcases keysA_upsert hk with hEq | hmem
          · exact hEq ▸ findFirstOptDir_cap hF
          · exact hbase k hmem

/-- Every push-stack name the extraction loop records is a name-class
string (stored raw, exactly as captured). -/
theorem extractPushesGo_keys : ∀ (fuel : Nat) (fn s : Str) (ps : List (Str × List Str))
    (rest5 : Str) (ps2 : List (Str × List Str)),
    extractPushesGo fn fuel s ps = .ok (rest5, ps2) ->
    (∀ k ∈ keysA ps, ∀ c ∈ k, isNameChar c = true) ->
    ∀ k ∈ keysA ps2, ∀ c ∈ k, isNameChar c = true := by
  intro fuel
  induction fuel with
  | zero =>
    intro fn s ps rest5 ps2 h hbase
    cases h
    exact hbase
  | succ fuel ih =>
    intro fn s ps rest5 ps2 h hbase
    dsimp only [extractPushesGo] at h
    cases hF : findFirstSimple (lit "@push(") isNameChar s with
    | none =>
      rw [hF] at h
      cases h
      exact hbase
    | some x =>
      rcases x with ⟨before, name, rest⟩
      rw [hF] at h
      dsimp only at h
      cases hL : findLit (lit "@endpush") rest with
      | none => rw [hL] at h; cases h
      | some y =>
        rcases y with ⟨content, after⟩
        rw [hL] at h
        dsimp only at h
        refine ih fn _ _ rest5 ps2 h ?_
        intro k hk
        rcases keysA_appendAt hk with hEq | hmem
        · exact hEq ▸ findFirstSimple_cap hF
        · exact hbase k hmem

/-! ## Claim C7 -/

/-- A name equal to the normalization of a name-class capture is its own
normal form (and equals the capture itself). -/
theorem normalForm_of_name_cap {k : Str}
    (h : ∃ cap, (∀ c ∈ cap, isNameChar c = true) ∧ k = normalizeName cap) :
    normalizeName k = k := by
  obtain ⟨cap, hcls, hEq⟩ := h
  rw [hEq, normalizeName_id_name hcls, normalizeName_id_name hcls]

/-- C7: every name a successful extraction stores is the normalized form of
the raw captured argument.  Yield keys, stack names, section names and
push-stack names are their own normal forms (the latter two are stored as
captured, and their character class admits no trimming or extension, so
the raw and normalized forms coincide); the extends target and every
include entry equal `normalizeName` of a captured path-class argument. -/
theorem c7_stored_names_normalized (nm raw : Str) (p : ParsedFile)
    (h : parseFile nm raw = .ok p) :
    (∀ k ∈ keysA p.Yields, normalizeName k = k) ∧
    (∀ k ∈ p.Stacks, normalizeName k = k) ∧
    (∀ k ∈ keysA p.Sections, (∀ c ∈ k, isNameChar c = true) ∧ normalizeName k = k) ∧
    (∀ k ∈ keysA p.PushStacks, (∀ c ∈ k, isNameChar c = true) ∧ normalizeName k = k) ∧
    (∀ k ∈ p.Includes, ∃ cap, (∀ c ∈ cap, isPathChar c = true) ∧ k = normalizeName cap) ∧
    (p.Extends = [] ∨
      ∃ cap, (∀ c ∈ cap, isPathChar c = true) ∧ p.Extends = normalizeName cap) := by
  obtain ⟨rest4, secs, rest5, pushes, hSec, hPush, hp⟩ := parseFile_ok_shape h
  subst hp
  dsimp only
  refine ⟨?_, ?_, ?_, ?_, ?_, ?_⟩
  · intro k hk
    refine normalForm_of_name_cap ?_
    unfold rewriteYields at hk
    exact rewriteYieldsGo_keys _ _ [] (by intro k2 hk2; cases hk2) k hk
  · intro k hk
    refine normalForm_of_name_cap ?_
    unfold rewriteStacks at hk
    exact rewriteStacksGo_keys _ _ [] (by intro k2 hk2; cases hk2) k hk
  · intro k hk
    have hcls := extractSectionsGo_keys _ nm _ [] rest4 secs hSec
      (by intro k2 hk2; cases hk2) k hk
    exact ⟨hcls, normalizeName_id_name hcls⟩
  · intro k hk
    have hcls := extractPushesGo_keys _ nm _ [] rest5 pushes hPush
      (by intro k2 hk2; cases hk2) k hk
    exact ⟨hcls, normalizeName_id_name hcls⟩
  · intro k hk
    unfold rewriteIncludes at hk
    exact rewriteIncludesGo_keys _ _ [] (by intro k2 hk2; cases hk2) k hk
  · unfold extendsPass
    cases hF : findFirstSimple (lit "@extends(") isPathChar raw with
    | none => exact Or.inl rfl
    | some x =>
      rcases x with ⟨before, cap, after⟩
      exact Or.inr ⟨cap, findFirstSimple_cap hF, rfl⟩

/-- C7 (witness): the normalization property applied to the parsed page of
the round-trip scenario — its stored section name `title` is its own
normal form. -/
theorem c7_stored_names_normalized_witness :
    (∀ c ∈ lit "title", isNameChar c = true) ∧ normalizeName (lit "title") = lit "title" :=
  (c7_stored_names_normalized (lit "p") c2PageRaw c2Page (by decide)).2.2.1
    (lit "title") (by decide)

end Blade
